import Mathlib

/-!
Verification of the archive-transcoding pipeline of `epub-compressor`
(`src/epub_compressor/compress.py`, with the web front end's variant from
`src/epub_compressor/app.py`).

Embedding conventions:
* byte sequences are `List Nat`;
* archive member names are `String`, manipulated through ASCII-level helpers
  over `List Char` (Python's `str.lower` and substring tests on member paths);
* the external image codec (PIL `Image.open` + `save`) is a parameter of type
  `Codec`: it either re-encodes the bytes or fails, standing for any exception
  the codec may raise;
* the external archive reader (`zipfile.ZipFile` applied to raw bytes) is a
  parameter of type `ZipParser` that yields the member list or fails, standing
  for `BadZipFile` on malformed input;
* the thread pool plus `concurrent.futures.as_completed` is modelled by a
  schedule function `sched` reordering the futures list; faithfulness of the
  model requires `sched` to permute its input, since `as_completed` yields
  every submitted future exactly once, in an arbitrary order.
-/

/-- ASCII lowercasing of one character, the effect of Python `str.lower` on the
ASCII member paths manipulated here. -/
def asciiLower (c : Char) : Char :=
  if 65 ≤ c.toNat ∧ c.toNat ≤ 90 then Char.ofNat (c.toNat + 32) else c

/-- Lowercase a member path, Python `item.filename.lower()`. -/
def lowerL (s : List Char) : List Char := s.map asciiLower

/-- Decides whether the first list is a prefix of the second; used both for
Python `str.startswith` and for magic-signature tests on byte content. -/
def isPrefixL {α : Type} [BEq α] : List α → List α → Bool
  | [], _ => true
  | _ :: _, [] => false
  | a :: as, b :: bs => a == b && isPrefixL as bs

/-- Python's `needle in haystack` substring test on strings. -/
def containsSub (needle : List Char) : List Char → Bool
  | [] => isPrefixL needle []
  | c :: cs => isPrefixL needle (c :: cs) || containsSub needle cs

/-- Python `str.startswith`: the receiver `s` starts with `pre`. -/
def strStartsWith (s pre : String) : Bool := isPrefixL pre.data s.data

/-- The characters after the last dot of a path, `none` when the path has no
dot.  This is how `mimetypes.guess_type` isolates the extension (via
`splitext`); a dot inside a directory component yields an extension containing
a slash, which no table entry matches, so the verdict agrees with Python's
basename-based split on all paths. -/
def extAfterDot : List Char → Option (List Char)
  | [] => none
  | c :: cs =>
    match extAfterDot cs with
    | some e => some e
    | none => if c == '.' then some cs else none

/-- The entries of Python's default `mimetypes.types_map` relevant to EPUB
members (image formats, markup, styles, text); any other extension is absent
from the modelled table and yields `none`, as `guess_type` returns
`(None, None)` for extensions it does not know. -/
def lookupExt (e : List Char) : Option String :=
  if e = "png".data then some "image/png"
  else if e = "jpg".data then some "image/jpeg"
  else if e = "jpeg".data then some "image/jpeg"
  else if e = "gif".data then some "image/gif"
  else if e = "webp".data then some "image/webp"
  else if e = "svg".data then some "image/svg+xml"
  else if e = "xhtml".data then some "application/xhtml+xml"
  else if e = "html".data then some "text/html"
  else if e = "htm".data then some "text/html"
  else if e = "css".data then some "text/css"
  else if e = "xml".data then some "text/xml"
  else if e = "txt".data then some "text/plain"
  else if e = "opf".data then none
  else none

/-- Model of `mimetypes.guess_type(filename)` (the type component): look the
lowercased extension up in the types table; no extension or an unknown
extension gives `none`. -/
def mimetypes_guess_type (filename : String) : Option String :=
  match extAfterDot filename.data with
  | none => none
  | some e => lookupExt (lowerL e)

/-- Model of `magic.from_buffer(content, mime=True)` (libmagic content
sniffing, used by app.py): recognize the magic signatures of the image formats
relevant here; anything else is reported as a non-image type. -/
def magic_from_buffer (content : List Nat) : String :=
  if isPrefixL [0x89, 0x50, 0x4E, 0x47] content then "image/png"
  else if isPrefixL [0xFF, 0xD8, 0xFF] content then "image/jpeg"
  else if isPrefixL [0x47, 0x49, 0x46, 0x38] content then "image/gif"
  else "application/octet-stream"

/-- The target format argument, Python `Literal["WEBP", "AVIF"]`. -/
inductive ImgFormat where
  | WEBP
  | AVIF
deriving DecidableEq

/-- External image-codec collaborator: the composite of PIL `Image.open` and
`img.save(..., format, quality)` inside `convert_image`'s `try` block.  It
either produces the re-encoded bytes or fails with an error message, standing
for any exception raised while decoding or encoding. -/
def Codec : Type := List Nat → Nat → ImgFormat → Except String (List Nat)

/-- Definition of `convert_image` (compress.py lines 11-21): run the codec on the
bytes; on success return its output, on any exception log and return the
original bytes.  The function is total: the `try`/`except Exception` block
catches every codec failure, so no exception escapes. -/
def convert_image (codec : Codec) (image : List Nat) (quality : Nat)
    (img_format : ImgFormat) : List Nat :=
  match codec image quality img_format with
  | .ok out => out
  | .error _ => image

/-- Member metadata, the fields of `zipfile.ZipInfo` the pipeline carries:
name, timestamp (`date_time`, abstracted to one number), compression method and
external attributes. -/
structure ZipInfo where
  filename : String
  date_time : Nat
  compress_type : Nat
  external_attr : Nat
deriving DecidableEq

/-- One archive member: its metadata record together with its byte content. -/
structure ZipEntry where
  info : ZipInfo
  content : List Nat
deriving DecidableEq

/-- Name lookup in an archive.  Python's `zipfile` builds `NameToInfo` by
scanning the central directory in order and overwriting the map entry on a
duplicate name, so lookup by name yields the LAST member bearing that name;
`find_last` is that lookup. -/
def find_last : List ZipEntry → String → Option ZipEntry
  | [], _ => none
  | e :: rest, name =>
    match find_last rest name with
    | some r => some r
    | none => if e.info.filename = name then some e else none

/-- Definition of `ZipFile.read(name)`: the content of the member `NameToInfo` maps
`name` to, `none` (a `KeyError`) when no member bears the name. -/
def zipRead (book : List ZipEntry) (name : String) : Option (List Nat) :=
  (find_last book name).map (·.content)

/-- The `if` condition of `process_file` (compress.py lines 33-37): the guessed
MIME type is truthy and starts with "image", and the lowercased name does not
contain "cover". -/
def compress_eligible (filename : String) : Bool :=
  (match mimetypes_guess_type filename with
   | some mime_type => strStartsWith mime_type "image"
   | none => false)
  && !(containsSub "cover".data (lowerL filename.data))

/-- Definition of `process_file` (compress.py lines 24-40): read the member's bytes
from the archive by name, guess the MIME type from the file name, and hand the
bytes to `convert_image` when eligible, else pass them through.  `book.read`
cannot fail for an `item` taken from the archive's own list; for a name absent
from the archive the model reads empty bytes where Python would raise. -/
def process_file (codec : Codec) (item : ZipInfo) (book : List ZipEntry)
    (quality : Nat) (img_format : ImgFormat) : ZipInfo × List Nat :=
  let file_content := (zipRead book item.filename).getD []
  if compress_eligible item.filename then
    (item, convert_image codec file_content quality img_format)
  else
    (item, file_content)

/-- The `if` condition of app.py's `process_file` (lines 32-33): the type is
sniffed from the member's byte content by libmagic instead of from its name. -/
def app_eligible (filename : String) (content : List Nat) : Bool :=
  strStartsWith (magic_from_buffer content) "image"
  && !(containsSub "cover".data (lowerL filename.data))

/-- Definition of `process_file` from app.py (lines 25-36), identical to the
compress.py version except that the MIME type comes from
`magic.from_buffer(file_content, mime=True)`. -/
def app_process_file (codec : Codec) (item : ZipInfo) (book : List ZipEntry)
    (quality : Nat) (img_format : ImgFormat) : ZipInfo × List Nat :=
  let file_content := (zipRead book item.filename).getD []
  if app_eligible item.filename file_content then
    (item, convert_image codec file_content quality img_format)
  else
    (item, file_content)

/-- Definition of `ZipFile.writestr(zinfo, data)`: a new archive entry carrying the
given metadata record and `data` as its content. -/
def writestr (item : ZipInfo) (content : List Nat) : ZipEntry :=
  { info := item, content := content }

/-- The futures submitted by `compress_epub` (lines 52-55): one
`process_file` result per entry of `book.infolist()`, in enumeration order. -/
def futures (codec : Codec) (book : List ZipEntry) (quality : Nat)
    (img_format : ImgFormat) : List (ZipInfo × List Nat) :=
  (book.map (·.info)).map (fun item => process_file codec item book quality img_format)

/-- Definition of `compress_epub` (lines 43-61) with the completion order of
`as_completed` made explicit: `sched` reorders the futures list, and each
completed result is written with `writestr`.  Any `sched` that permutes its
input is a possible run. -/
def compress_epub_sched
    (sched : List (ZipInfo × List Nat) → List (ZipInfo × List Nat))
    (codec : Codec) (book : List ZipEntry) (quality : Nat)
    (img_format : ImgFormat) : List ZipEntry :=
  (sched (futures codec book quality img_format)).map (fun r => writestr r.1 r.2)

/-- Definition of `compress_epub` under the submission-order schedule (one possible
completion order). -/
def compress_epub (codec : Codec) (book : List ZipEntry) (quality : Nat)
    (img_format : ImgFormat) : List ZipEntry :=
  compress_epub_sched id codec book quality img_format

/-- External archive-reading collaborator: `zipfile.ZipFile` applied to raw
input bytes either yields the member list (with contents) or fails, standing
for `BadZipFile` on input that is not a well-formed zip archive. -/
def ZipParser : Type := List Nat → Except String (List ZipEntry)

/-- Definition of `compress_epub` taken from raw input bytes: line 46 opens the
archive before anything is written, so a malformed input propagates the
archive error and no output is produced; otherwise the whole pipeline runs. -/
def compress_epub_bytes (parse : ZipParser) (codec : Codec) (data : List Nat)
    (quality : Nat) (img_format : ImgFormat) : Except String (List ZipEntry) :=
  match parse data with
  | .error e => .error e
  | .ok book => .ok (compress_epub codec book quality img_format)

/-- A codec that always fails, as PIL does on corrupt or unsupported bytes. -/
def failCodec : Codec := fun _ _ _ => .error "broken"

/-- A codec that re-encodes everything to the fixed bytes 9, 9. -/
def constCodec : Codec := fun _ _ _ => .ok [9, 9]

/-- A codec whose output is strictly larger than its input, as a real encoder
can be on small or already-compressed images. -/
def inflateCodec : Codec := fun image _ _ => .ok (image ++ image ++ [0])

/-- Leading bytes of a PNG file: the eight-byte PNG magic signature. -/
def pngBytes : List Nat := [0x89, 0x50, 0x4E, 0x47, 0x0D, 0x0A, 0x1A, 0x0A, 1, 2, 3]

example : mimetypes_guess_type "Images/Cover.JPG" = some "image/jpeg" := by decide
example : mimetypes_guess_type "mimetype" = none := by decide
example : compress_eligible "fig1.png" = true := by decide
example : compress_eligible "Images/Cover.JPG" = false := by decide
example : compress_eligible "chapter1.xhtml" = false := by decide
example : magic_from_buffer pngBytes = "image/png" := by decide

/-- An archive built from the spec's three-member test scenario. -/
def demoBook : List ZipEntry :=
  [⟨⟨"cover.jpg", 1, 8, 0⟩, [1, 2]⟩,
   ⟨⟨"chapter1.xhtml", 2, 8, 420⟩, [3]⟩,
   ⟨⟨"fig1.png", 3, 0, 16⟩, [4, 5]⟩]

/-- An archive reader accepting exactly one concrete byte string. -/
def demoParse : ZipParser := fun data =>
  if data = [80, 75, 5, 6] then .ok demoBook else .error "File is not a zip file"

theorem process_file_fst (codec : Codec) (item : ZipInfo) (book : List ZipEntry)
    (quality : Nat) (img_format : ImgFormat) :
    (process_file codec item book quality img_format).1 = item := by
  unfold process_file
  dsimp only
  split <;> rfl

theorem app_process_file_fst (codec : Codec) (item : ZipInfo) (book : List ZipEntry)
    (quality : Nat) (img_format : ImgFormat) :
    (app_process_file codec item book quality img_format).1 = item := by
  unfold app_process_file
  dsimp only
  split <;> rfl

/-- C1: for every run of the pipeline, under any completion order in which
`as_completed` yields each submitted future exactly once (any permutation of
the futures list), the multiset of member names of the output archive equals
the multiset of member names of the input archive: the same set of names,
with exactly one output entry per source member. -/
theorem compress_epub_member_names (sched : List (ZipInfo × List Nat) → List (ZipInfo × List Nat))
    (codec : Codec) (book : List ZipEntry) (quality : Nat) (img_format : ImgFormat)
    (hsched : (sched (futures codec book quality img_format)).Perm
      (futures codec book quality img_format)) :
    ((compress_epub_sched sched codec book quality img_format).map (fun e => e.info.filename)).Perm
      (book.map (fun e => e.info.filename)) := by
  have h1 : (compress_epub_sched sched codec book quality img_format).map (fun e => e.info.filename)
      = (sched (futures codec book quality img_format)).map (fun r => r.1.filename) := by
    simp [compress_epub_sched, writestr, List.map_map, Function.comp]
  have h2 : (futures codec book quality img_format).map (fun r => r.1.filename)
      = book.map (fun e => e.info.filename) := by
    simp [futures, List.map_map, Function.comp, process_file_fst]
  rw [h1, ← h2]
  exact hsched.map _

/-- Witness for C1 on the spec's three-member archive, with the completion
order reversing the submission order. -/
theorem compress_epub_member_names_witness :
    ((compress_epub_sched List.reverse constCodec demoBook 80 ImgFormat.WEBP).map
        (fun e => e.info.filename)).Perm
      (demoBook.map (fun e => e.info.filename)) :=
  compress_epub_member_names List.reverse constCodec demoBook 80 ImgFormat.WEBP
    (List.reverse_perm _)

/-- C3: `convert_image` is total (the `except Exception` block catches every
codec failure, so no exception escapes past the transcoder), and whenever the
codec fails — for any input bytes, quality and format — it returns the
original input bytes unchanged. -/
theorem convert_image_fail_open (codec : Codec) (image : List Nat) (quality : Nat)
    (img_format : ImgFormat) (e : String)
    (h : codec image quality img_format = .error e) :
    convert_image codec image quality img_format = image := by
  unfold convert_image
  rw [h]

/-- Witness for C3: a codec that always raises leaves the bytes untouched. -/
theorem convert_image_fail_open_witness :
    convert_image failCodec [0, 1] 75 ImgFormat.AVIF = [0, 1] :=
  convert_image_fail_open failCodec [0, 1] 75 ImgFormat.AVIF "broken" rfl

/-- C4: `compress_epub` opens the archive before writing anything, so on input
that is not a well-formed archive the archive error propagates and no output
archive is produced; on well-formed input the pipeline is total (every
per-member failure is caught inside the transcoder) and returns a complete
archive with exactly one entry per source member. -/
theorem compress_epub_bytes_contract (parse : ZipParser) (codec : Codec)
    (data : List Nat) (quality : Nat) (img_format : ImgFormat) :
    (∀ e, parse data = .error e →
      compress_epub_bytes parse codec data quality img_format = .error e) ∧
    (∀ book, parse data = .ok book →
      compress_epub_bytes parse codec data quality img_format =
        .ok (compress_epub codec book quality img_format) ∧
      (compress_epub codec book quality img_format).length = book.length) := by
  constructor
  · intro e he
    simp [compress_epub_bytes, he]
  · intro book hbook
    refine ⟨by simp [compress_epub_bytes, hbook], ?_⟩
    simp [compress_epub, compress_epub_sched, futures]

/-- Witness for C4: bytes the archive reader rejects produce the archive error
and no output. -/
theorem compress_epub_bytes_contract_witness :
    compress_epub_bytes demoParse constCodec [3] 75 ImgFormat.WEBP =
      .error "File is not a zip file" :=
  (compress_epub_bytes_contract demoParse constCodec [3] 75 ImgFormat.WEBP).1
    "File is not a zip file" rfl

/-- C5: each source member's own metadata record — name, timestamp, compression
method, external attributes — is carried verbatim to that member's destination
entry, and only the content may differ.  Under the submission-order schedule
the list of output metadata records equals the list of source metadata records
position by position (source member `i` produced output entry `i`); under any
completion order that permutes the futures list, the multiset of output
metadata records equals the multiset of source metadata records, so every
source member contributes exactly one destination entry bearing its own
metadata record — no record is dropped, duplicated onto another member's
entry, or altered. -/
theorem compress_epub_metadata_reused
    (sched : List (ZipInfo × List Nat) → List (ZipInfo × List Nat))
    (codec : Codec) (book : List ZipEntry) (quality : Nat) (img_format : ImgFormat)
    (hsched : (sched (futures codec book quality img_format)).Perm
      (futures codec book quality img_format)) :
    (compress_epub codec book quality img_format).map (fun e => e.info) =
      book.map (fun e => e.info) ∧
    ((compress_epub_sched sched codec book quality img_format).map
        (fun e => e.info)).Perm
      (book.map (fun e => e.info)) := by
  have hfut : (futures codec book quality img_format).map (fun r => r.1) =
      book.map (fun e => e.info) := by
    simp [futures, List.map_map, Function.comp, process_file_fst]
  constructor
  · simp [compress_epub, compress_epub_sched, futures, writestr, List.map_map,
      Function.comp, process_file_fst]
  · have h1 : (compress_epub_sched sched codec book quality img_format).map
        (fun e => e.info)
        = (sched (futures codec book quality img_format)).map (fun r => r.1) := by
      simp [compress_epub_sched, writestr, List.map_map, Function.comp]
    rw [h1, ← hfut]
    exact hsched.map _

/-- An archive with two same-named members whose timestamps, compression
methods and external attributes differ. -/
def dupMetaBook : List ZipEntry :=
  [⟨⟨"a.txt", 5, 0, 1⟩, [1]⟩, ⟨⟨"a.txt", 9, 8, 2⟩, [2]⟩]

/-- Witness for C5 on an archive whose two same-named members carry different
timestamps and attributes: each member's own record reaches its entry, also
under a reversing completion order. -/
theorem compress_epub_metadata_reused_witness :
    (compress_epub constCodec dupMetaBook 80 ImgFormat.WEBP).map (fun e => e.info) =
      dupMetaBook.map (fun e => e.info) ∧
    ((compress_epub_sched List.reverse constCodec dupMetaBook 80 ImgFormat.WEBP).map
        (fun e => e.info)).Perm
      (dupMetaBook.map (fun e => e.info)) :=
  compress_epub_metadata_reused List.reverse constCodec dupMetaBook 80 ImgFormat.WEBP
    (List.reverse_perm _)

/-- An archive with two members named "a.txt" holding different bytes. -/
def dupTxtBook : List ZipEntry :=
  [⟨⟨"a.txt", 0, 0, 0⟩, [1]⟩, ⟨⟨"a.txt", 0, 0, 0⟩, [2]⟩]

/-- Counterexample to C2: the first "a.txt" member has a determined non-image
type, so the claim requires its output bytes to equal its own input bytes [1];
but `process_file` reads content by name, the name resolves to the last
duplicate, and the output bytes are [2]. -/
theorem process_file_shadowed_member_counterexample :
    compress_eligible "a.txt" = false ∧
    dupTxtBook[0]?.map (fun e => e.content) = some [1] ∧
    (process_file failCodec ⟨"a.txt", 0, 0, 0⟩ dupTxtBook 80 ImgFormat.WEBP).2 = [2] := by
  decide

/-- C2 amended: for every member that is the last member bearing its name (in
particular every member of an archive without duplicate names), the member's
content is handed to the transcoder if and only if the type guessed from its
name indicates an image and its lowercased name does not contain "cover"; in
every other case the output bytes are byte-identical to the member's bytes. -/
theorem process_file_last_occurrence_spec (codec : Codec) (book : List ZipEntry)
    (quality : Nat) (img_format : ImgFormat) (entry : ZipEntry)
    (hlast : find_last book entry.info.filename = some entry) :
    (compress_eligible entry.info.filename = true →
      (process_file codec entry.info book quality img_format).2 =
        convert_image codec entry.content quality img_format) ∧
    (compress_eligible entry.info.filename = false →
      (process_file codec entry.info book quality img_format).2 = entry.content) ∧
    (compress_eligible entry.info.filename = true ↔
      ((∃ t, mimetypes_guess_type entry.info.filename = some t ∧
          strStartsWith t "image" = true) ∧
        containsSub "cover".data (lowerL entry.info.filename.data) = false)) := by
  have hread : (zipRead book entry.info.filename).getD [] = entry.content := by
    simp [zipRead, hlast]
  refine ⟨?_, ?_, ?_⟩
  · intro helig
    simp [process_file, hread, helig]
  · intro helig
    simp [process_file, hread, helig]
  · cases hm : mimetypes_guess_type entry.info.filename with
    | none => simp [compress_eligible, hm]
    | some t => simp [compress_eligible, hm, Bool.and_eq_true, Bool.not_eq_true']

/-- A singleton archive holding one transcodable image member. -/
def pngSolo : List ZipEntry := [⟨⟨"fig1.png", 7, 0, 2⟩, [4, 5]⟩]

/-- Witness for amended C2: the eligible member of the singleton archive is
handed to the transcoder. -/
theorem process_file_last_occurrence_spec_witness :
    (process_file constCodec ⟨"fig1.png", 7, 0, 2⟩ pngSolo 80 ImgFormat.WEBP).2 =
      convert_image constCodec [4, 5] 80 ImgFormat.WEBP :=
  (process_file_last_occurrence_spec constCodec pngSolo 80 ImgFormat.WEBP
      ⟨⟨"fig1.png", 7, 0, 2⟩, [4, 5]⟩ (by decide)).1 (by decide)

/-- An archive with two members named "mimetype" (no extension, so the guessed
type is undetermined) holding different bytes. -/
def dupMimeBook : List ZipEntry :=
  [⟨⟨"mimetype", 0, 0, 0⟩, [1]⟩, ⟨⟨"mimetype", 0, 0, 0⟩, [2]⟩]

/-- Counterexample to C6: the first "mimetype" member's type is undetermined,
so the claim requires its output bytes to equal its own input bytes [1]; the
name-based read resolves to the last duplicate and the output bytes are [2]. -/
theorem undetermined_type_shadowed_counterexample :
    mimetypes_guess_type "mimetype" = none ∧
    dupMimeBook[0]?.map (fun e => e.content) = some [1] ∧
    (process_file failCodec ⟨"mimetype", 0, 0, 0⟩ dupMimeBook 80 ImgFormat.WEBP).2 = [2] := by
  decide

/-- C6 amended: a member whose content type cannot be determined is classified
as non-image, never treated as an error (`process_file` is total on it), and —
whenever it is the last member bearing its name, in particular whenever names
are unique — its output bytes are byte-identical to its own bytes. -/
theorem undetermined_type_passthrough (codec : Codec) (book : List ZipEntry)
    (quality : Nat) (img_format : ImgFormat) (entry : ZipEntry)
    (hlast : find_last book entry.info.filename = some entry)
    (hnone : mimetypes_guess_type entry.info.filename = none) :
    compress_eligible entry.info.filename = false ∧
    (process_file codec entry.info book quality img_format).2 = entry.content := by
  have helig : compress_eligible entry.info.filename = false := by
    simp [compress_eligible, hnone]
  exact ⟨helig, by simp [process_file, zipRead, hlast, helig]⟩

/-- A singleton archive holding one extensionless member. -/
def mimeSolo : List ZipEntry := [⟨⟨"mimetype", 0, 0, 0⟩, [7]⟩]

/-- Witness for amended C6: the extensionless "mimetype" member passes through
unchanged. -/
theorem undetermined_type_passthrough_witness :
    compress_eligible "mimetype" = false ∧
    (process_file failCodec ⟨"mimetype", 0, 0, 0⟩ mimeSolo 80 ImgFormat.WEBP).2 = [7] :=
  undetermined_type_passthrough failCodec mimeSolo 80 ImgFormat.WEBP
    ⟨⟨"mimetype", 0, 0, 0⟩, [7]⟩ (by decide) (by decide)

theorem find_last_name (book : List ZipEntry) (name : String) (r : ZipEntry)
    (h : find_last book name = some r) : r.info.filename = name := by
  induction book with
  | nil => simp [find_last] at h
  | cons e rest ih =>
    unfold find_last at h
    cases hr : find_last rest name with
    | some r2 =>
      simp only [hr] at h
      injection h with h2
      subst h2
      exact ih hr
    | none =>
      simp only [hr] at h
      split at h
      next hcond =>
        injection h with h2
        subst h2
        exact hcond
      next hcond => cases h

theorem find_last_mem (book : List ZipEntry) (name : String) (r : ZipEntry)
    (h : find_last book name = some r) : r ∈ book := by
  induction book with
  | nil => simp [find_last] at h
  | cons e rest ih =>
    unfold find_last at h
    cases hr : find_last rest name with
    | some r2 =>
      simp only [hr] at h
      injection h with h2
      subst h2
      exact List.mem_cons_of_mem _ (ih hr)
    | none =>
      simp only [hr] at h
      split at h
      next hcond =>
        injection h with h2
        subst h2
        exact List.mem_cons_self _ _
      next hcond => cases h

theorem find_last_isSome_of_mem (book : List ZipEntry) (entry : ZipEntry)
    (hmem : entry ∈ book) : (find_last book entry.info.filename).isSome := by
  induction book with
  | nil => cases hmem
  | cons e rest ih =>
    unfold find_last
    cases hr : find_last rest entry.info.filename with
    | some r2 => simp
    | none =>
      rcases List.mem_cons.mp hmem with heq | hrest
      · subst heq
        simp
      · have hsome := ih hrest
        rw [hr] at hsome
        simp at hsome

/-- A PNG image stored under a name whose extension no MIME table knows. -/
def datBook : List ZipEntry := [⟨⟨"fig.dat", 0, 0, 0⟩, pngBytes⟩]

/-- Counterexample to C8: a member named "fig.dat" whose bytes carry the PNG
magic signature.  The content-sniffing collaborator reports an image type, but
`process_file` of compress.py classifies by extension (`mimetypes.guess_type`),
determines no type, and passes the image through untranscoded; only app.py's
variant classifies it as an image. -/
theorem classifier_extension_based_counterexample :
    strStartsWith (magic_from_buffer pngBytes) "image" = true ∧
    mimetypes_guess_type "fig.dat" = none ∧
    compress_eligible "fig.dat" = false ∧
    (process_file constCodec ⟨"fig.dat", 0, 0, 0⟩ datBook 80 ImgFormat.WEBP).2 = pngBytes ∧
    (app_process_file constCodec ⟨"fig.dat", 0, 0, 0⟩ datBook 80 ImgFormat.WEBP).2 = [9, 9] := by
  decide

/-- C8 amended: only app.py's classifier inspects the member's actual byte
content: there, any member whose bytes carry an image signature and whose name
lacks "cover" is classified as an image, whatever its extension; compress.py's
pipeline infers the type from the file name alone, so an image member with an
arbitrary or missing extension is not classified as an image by it. -/
theorem app_classifier_content_based (filename : String) (content : List Nat)
    (h1 : strStartsWith (magic_from_buffer content) "image" = true)
    (h2 : containsSub "cover".data (lowerL filename.data) = false) :
    app_eligible filename content = true := by
  simp [app_eligible, h1, h2]

/-- Witness for amended C8: the extensionless PNG is classified as an image by
the content-based classifier. -/
theorem app_classifier_content_based_witness :
    app_eligible "fig.dat" pngBytes = true :=
  app_classifier_content_based "fig.dat" pngBytes (by decide) (by decide)

/-- An archive with two members named "notes.txt" holding different bytes. -/
def dupNoteBook : List ZipEntry :=
  [⟨⟨"notes.txt", 0, 0, 0⟩, [1]⟩, ⟨⟨"notes.txt", 0, 0, 0⟩, [2]⟩]

/-- Counterexample to C9: with two members named "notes.txt" holding [1] and
[2], every output entry holds [2], the bytes of the LAST member with the name;
the first member's bytes [1] never reach the output, contrary to the claim
that the first duplicate's bytes win. -/
theorem output_from_first_duplicate_counterexample :
    dupNoteBook[0]?.map (fun e => e.content) = some [1] ∧
    (compress_epub failCodec dupNoteBook 80 ImgFormat.WEBP).map (fun e => e.content) =
      [[2], [2]] := by
  decide

theorem find_last_none_names (book : List ZipEntry) (n : String)
    (h : find_last book n = none) : ∀ x ∈ book, x.info.filename ≠ n := by
  induction book with
  | nil =>
    intro x hx
    cases hx
  | cons e rest ih =>
    unfold find_last at h
    cases hr : find_last rest n with
    | some r => simp [hr] at h
    | none =>
      simp only [hr] at h
      intro x hx
      rcases List.mem_cons.mp hx with heq | hrest
      · subst heq
        intro hcontra
        rw [if_pos hcontra] at h
        cases h
      · exact ih hr x hrest

theorem find_last_is_last (book : List ZipEntry) (n : String) (r : ZipEntry)
    (h : find_last book n = some r) :
    ∃ k : Nat, book[k]? = some r ∧
      ∀ (j : Nat) (x : ZipEntry), k < j → book[j]? = some x →
        x.info.filename ≠ n := by
  induction book with
  | nil => simp [find_last] at h
  | cons e rest ih =>
    unfold find_last at h
    cases hr : find_last rest n with
    | some r2 =>
      simp only [hr] at h
      injection h with h2
      subst h2
      obtain ⟨k, hk, hbound⟩ := ih hr
      refine ⟨k + 1, by simpa using hk, ?_⟩
      intro j x hj hx
      cases j with
      | zero => omega
      | succ m =>
        have hm : k < m := by omega
        exact hbound m x hm (by simpa using hx)
    | none =>
      simp only [hr] at h
      split at h
      next hcond =>
        injection h with h2
        subst h2
        refine ⟨0, by simp, ?_⟩
        intro j x hj hx
        cases j with
        | zero => omega
        | succ m =>
          have hx2 : rest[m]? = some x := by simpa using hx
          have hlt : m < rest.length := (List.getElem?_eq_some.mp hx2).1
          have hxx : rest[m] = x := (List.getElem?_eq_some.mp hx2).2
          exact hxx ▸ find_last_none_names rest n hr _ (List.getElem_mem hlt)
      next hcond => cases h

/-- C9 amended: member content is read from the source archive by file name,
and the name lookup resolves to the LAST source member with that name: every
member's output is produced from the bytes of a same-named member at an index
`k` after which no member bears the name (so the earlier duplicates' original
bytes never reach the output). -/
theorem process_file_reads_last_duplicate (codec : Codec) (book : List ZipEntry)
    (quality : Nat) (img_format : ImgFormat) (entry : ZipEntry)
    (hmem : entry ∈ book) :
    ∃ (k : Nat) (last : ZipEntry), book[k]? = some last ∧
      last.info.filename = entry.info.filename ∧
      (∀ (j : Nat) (x : ZipEntry), k < j → book[j]? = some x →
        x.info.filename ≠ entry.info.filename) ∧
      (process_file codec entry.info book quality img_format).2 =
        (if compress_eligible entry.info.filename = true then
          convert_image codec last.content quality img_format
        else last.content) := by
  obtain ⟨last, hlast⟩ :=
    Option.isSome_iff_exists.mp (find_last_isSome_of_mem book entry hmem)
  obtain ⟨k, hk, hbound⟩ := find_last_is_last book entry.info.filename last hlast
  refine ⟨k, last, hk, find_last_name _ _ _ hlast, hbound, ?_⟩
  have hread : (zipRead book entry.info.filename).getD [] = last.content := by
    simp [zipRead, hlast]
  by_cases h : compress_eligible entry.info.filename = true
  · simp [process_file, hread, h]
  · simp [process_file, hread, h]

/-- Witness for amended C9: processing the first "notes.txt" duplicate yields
the bytes of a same-named member at an index after which the name no longer
occurs — the last duplicate. -/
theorem process_file_reads_last_duplicate_witness :
    ∃ (k : Nat) (last : ZipEntry), dupNoteBook[k]? = some last ∧
      last.info.filename = "notes.txt" ∧
      (∀ (j : Nat) (x : ZipEntry), k < j → dupNoteBook[j]? = some x →
        x.info.filename ≠ "notes.txt") ∧
      (process_file failCodec ⟨"notes.txt", 0, 0, 0⟩ dupNoteBook 80 ImgFormat.WEBP).2 =
        (if compress_eligible "notes.txt" = true then
          convert_image failCodec last.content 80 ImgFormat.WEBP
        else last.content) :=
  process_file_reads_last_duplicate failCodec dupNoteBook 80 ImgFormat.WEBP
    ⟨⟨"notes.txt", 0, 0, 0⟩, [1]⟩ (by decide)

/-- A singleton archive whose image member the inflating codec enlarges. -/
def growBook : List ZipEntry := [⟨⟨"fig1.png", 0, 0, 0⟩, [1, 2, 3]⟩]

/-- C10: whenever the codec succeeds on an image, its output is written
unconditionally — `convert_image` never compares the transcoded size against
the original — and consequently a codec whose output is larger than its input
makes an output member, and the whole output archive, strictly larger than the
input. -/
theorem transcoded_bytes_written_unconditionally :
    (∀ (codec : Codec) (image out : List Nat) (quality : Nat) (img_format : ImgFormat),
      codec image quality img_format = .ok out →
      convert_image codec image quality img_format = out) ∧
    (compress_epub inflateCodec growBook 80 ImgFormat.WEBP).map (fun e => e.content) =
      [[1, 2, 3, 1, 2, 3, 0]] ∧
    ((growBook.map fun e => e.content.length).sum <
      ((compress_epub inflateCodec growBook 80 ImgFormat.WEBP).map
        fun e => e.content.length).sum) := by
  refine ⟨?_, by decide, by decide⟩
  intro codec image out quality img_format h
  unfold convert_image
  rw [h]

/-- Witness for C10: the inflating codec's output is written as is. -/
theorem transcoded_bytes_written_unconditionally_witness :
    convert_image inflateCodec [1, 2, 3] 80 ImgFormat.WEBP = [1, 2, 3, 1, 2, 3, 0] :=
  transcoded_bytes_written_unconditionally.1 inflateCodec [1, 2, 3]
    [1, 2, 3, 1, 2, 3, 0] 80 ImgFormat.WEBP rfl

theorem convert_image_error_eq (codec : Codec) (image : List Nat) (quality : Nat)
    (img_format : ImgFormat) (e : String)
    (h : codec image quality img_format = .error e) :
    convert_image codec image quality img_format = image := by
  unfold convert_image
  rw [h]

theorem find_last_eq_none (book : List ZipEntry) (n : String)
    (h : ∀ x ∈ book, x.info.filename ≠ n) : find_last book n = none := by
  induction book with
  | nil => rfl
  | cons e rest ih =>
    unfold find_last
    rw [ih (fun x hx => h x (List.mem_cons_of_mem _ hx))]
    simp [if_neg (h e (List.mem_cons_self _ _))]

theorem find_last_set_ne (book : List ZipEntry) (i : Nat) (e₁ e₂ : ZipEntry) (n : String)
    (hi : book[i]? = some e₁) (h1 : e₁.info.filename ≠ n) (h2 : e₂.info.filename ≠ n) :
    find_last (book.set i e₂) n = find_last book n := by
  induction book generalizing i with
  | nil => simp at hi
  | cons e rest ih =>
    cases i with
    | zero =>
      have he : e = e₁ := by simpa using hi
      subst he
      show find_last (e₂ :: rest) n = find_last (e :: rest) n
      unfold find_last
      cases hr : find_last rest n with
      | some r => simp
      | none => simp [if_neg h2, if_neg h1]
    | succ k =>
      have hi2 : rest[k]? = some e₁ := by simpa using hi
      show find_last (e :: rest.set k e₂) n = find_last (e :: rest) n
      unfold find_last
      rw [ih k hi2]

theorem find_last_unique (book : List ZipEntry) (i : Nat) (e : ZipEntry)
    (hi : book[i]? = some e)
    (huniq : ∀ j, j ≠ i → ∀ x, book[j]? = some x → x.info.filename ≠ e.info.filename) :
    find_last book e.info.filename = some e := by
  induction book generalizing i with
  | nil => simp at hi
  | cons b rest ih =>
    cases i with
    | zero =>
      have hb : b = e := by simpa using hi
      subst hb
      unfold find_last
      have hnone : find_last rest b.info.filename = none := by
        apply find_last_eq_none
        intro x hx
        obtain ⟨k, hk⟩ := List.getElem?_of_mem hx
        exact huniq (k + 1) (Nat.succ_ne_zero k) x (by simpa using hk)
      rw [hnone]
      simp
    | succ k =>
      have hi2 : rest[k]? = some e := by simpa using hi
      unfold find_last
      rw [ih k hi2 ?huniq2]
      case huniq2 =>
        intro j hj x hx
        exact huniq (j + 1) (fun hc => hj (Nat.succ_injective hc)) x (by simpa using hx)

theorem compress_epub_getElem (codec : Codec) (book : List ZipEntry) (quality : Nat)
    (img_format : ImgFormat) (j : Nat) :
    (compress_epub codec book quality img_format)[j]? =
      (book[j]?).map (fun en =>
        writestr en.info (process_file codec en.info book quality img_format).2) := by
  cases hj : book[j]? with
  | none =>
    simp [compress_epub, compress_epub_sched, futures, List.getElem?_map, hj]
  | some en =>
    simp [compress_epub, compress_epub_sched, futures, List.getElem?_map, hj,
      process_file_fst, writestr]

/-- Two archives with duplicate member names that differ only in the bytes of
their second member. -/
def dupIsoBookA : List ZipEntry :=
  [⟨⟨"n.txt", 0, 0, 0⟩, [1]⟩, ⟨⟨"n.txt", 0, 0, 0⟩, [2]⟩]

/-- The variant of `dupIsoBookA` whose second member holds [3] instead of [2]. -/
def dupIsoBookB : List ZipEntry :=
  [⟨⟨"n.txt", 0, 0, 0⟩, [1]⟩, ⟨⟨"n.txt", 0, 0, 0⟩, [3]⟩]

/-- Counterexample to C7: the two archives differ only in the bytes of member 1
(member 0 is identical in both), yet member 0's output content differs across
the two runs ([2] against [3]), because member 0's content is read by name and
the name resolves to member 1.  Isolation fails when members share a name. -/
theorem isolation_duplicate_name_counterexample :
    dupIsoBookA[0]? = dupIsoBookB[0]? ∧
    (dupIsoBookA[1]?).map (fun e => e.info) = (dupIsoBookB[1]?).map (fun e => e.info) ∧
    (compress_epub failCodec dupIsoBookA 80 ImgFormat.WEBP).map (fun e => e.content) =
      [[2], [2]] ∧
    (compress_epub failCodec dupIsoBookB 80 ImgFormat.WEBP).map (fun e => e.content) =
      [[3], [3]] := by
  decide

/-- C7 amended: per-member processing is isolated provided no other member
shares the modified member's name.  If archive `book.set i e₂` differs from
`book` only in the bytes of member `i` (same metadata), and no member other
than `i` bears that member's name, then every other member's output entry is
identical across the two runs, and — whenever the codec fails on the modified
member's bytes — that member's output bytes equal its input bytes. -/
theorem compress_epub_isolation (codec : Codec) (book : List ZipEntry) (i : Nat)
    (e₂ : ZipEntry) (quality : Nat) (img_format : ImgFormat) (hi : i < book.length)
    (hinfo : e₂.info = (book.get ⟨i, hi⟩).info)
    (huniq : ∀ j, (hj : j < book.length) → j ≠ i →
      (book.get ⟨j, hj⟩).info.filename ≠ (book.get ⟨i, hi⟩).info.filename) :
    (∀ j, j ≠ i →
      (compress_epub codec (book.set i e₂) quality img_format)[j]? =
        (compress_epub codec book quality img_format)[j]?) ∧
    (∀ err, codec e₂.content quality img_format = .error err →
      ((compress_epub codec (book.set i e₂) quality img_format)[i]?).map
        (fun e => e.content) = some e₂.content) := by
  have hie : book[i]? = some (book.get ⟨i, hi⟩) := List.getElem?_eq_getElem hi
  have hname2 : e₂.info.filename = (book.get ⟨i, hi⟩).info.filename := by rw [hinfo]
  constructor
  · intro j hj
    have hset : (book.set i e₂)[j]? = book[j]? :=
      List.getElem?_set_ne (fun h => hj h.symm)
    rw [compress_epub_getElem, compress_epub_getElem, hset]
    cases hbj : book[j]? with
    | none => rfl
    | some en =>
      have hjlt : j < book.length := (List.getElem?_eq_some.mp hbj).1
      have hen : book.get ⟨j, hjlt⟩ = en := (List.getElem?_eq_some.mp hbj).2
      have hnne : en.info.filename ≠ (book.get ⟨i, hi⟩).info.filename :=
        hen ▸ huniq j hjlt hj
      have hfl : find_last (book.set i e₂) en.info.filename =
          find_last book en.info.filename :=
        find_last_set_ne book i _ e₂ _ hie (Ne.symm hnne)
          (by rw [hname2]; exact Ne.symm hnne)
      simp [process_file, zipRead, hfl]
  · intro err herr
    have hset : (book.set i e₂)[i]? = some e₂ := List.getElem?_set_self hi
    rw [compress_epub_getElem, hset]
    have hflu : find_last (book.set i e₂) e₂.info.filename = some e₂ := by
      apply find_last_unique (book.set i e₂) i e₂ hset
      intro j hjne x hx
      have hxj : book[j]? = some x := by
        rw [← List.getElem?_set_ne (a := e₂) (fun h => hjne h.symm)]
        exact hx
      have hjlt : j < book.length := (List.getElem?_eq_some.mp hxj).1
      have hxx : book.get ⟨j, hjlt⟩ = x := (List.getElem?_eq_some.mp hxj).2
      rw [hname2]
      exact hxx ▸ huniq j hjlt hjne
    have hproc : (process_file codec e₂.info (book.set i e₂) quality img_format).2 =
        e₂.content := by
      by_cases helig : compress_eligible e₂.info.filename = true
      · simp [process_file, zipRead, hflu, helig, convert_image, herr]
      · simp [process_file, zipRead, hflu, helig]
    simp [writestr, hproc]

/-- Witness for amended C7 on the demo archive (unique names): replacing the
bytes of the third member leaves the first member's output entry unchanged and,
with a codec that fails on the new bytes, the modified member passes through. -/
theorem compress_epub_isolation_witness :
    (compress_epub failCodec (demoBook.set 2 ⟨⟨"fig1.png", 3, 0, 16⟩, [6, 6]⟩)
        80 ImgFormat.WEBP)[0]? =
      (compress_epub failCodec demoBook 80 ImgFormat.WEBP)[0]? ∧
    ((compress_epub failCodec (demoBook.set 2 ⟨⟨"fig1.png", 3, 0, 16⟩, [6, 6]⟩)
        80 ImgFormat.WEBP)[2]?).map (fun e => e.content) = some [6, 6] :=
  ⟨(compress_epub_isolation failCodec demoBook 2 ⟨⟨"fig1.png", 3, 0, 16⟩, [6, 6]⟩
      80 ImgFormat.WEBP (by decide) (by decide) (by decide)).1 0 (by decide),
   (compress_epub_isolation failCodec demoBook 2 ⟨⟨"fig1.png", 3, 0, 16⟩, [6, 6]⟩
      80 ImgFormat.WEBP (by decide) (by decide) (by decide)).2 "broken" rfl⟩
